import Mathlib

set_option autoImplicit false

/-!
Verification of the Kanban board's ordered-collection mutation engine and
command-based undo/redo log.

The task store (`server/storage.ts`, class `MemStorage`) keeps tasks in a
JavaScript `Map` iterated in insertion order; we embed it as a `List Task`
where `Map.set` on an existing key replaces the entry in place and `Map.set`
on a fresh key appends.  JavaScript `Array.prototype.sort` is stable, so it
is embedded as a stable insertion sort parameterised by the source
comparator.  Fields of a task that no modelled operation reads or writes
other than copying them through object spread (`description`, `type`,
`dueDate`, `userId`, `createdAt`) are omitted; `position` is always a number
on every task the store creates, so the JavaScript `t.position || 0`
defaulting is the identity here and positions are plain `Int`.
-/

namespace Kanban

/-- A task record (`shared/schema.ts`): id, title, status (column identifier)
and integer position within its column. -/
structure Task where
  id : Nat
  title : String
  status : String
  position : Int
  deriving Repr, DecidableEq

/-- The in-memory task store: the entries of `MemStorage.tasks` in `Map`
insertion order. -/
abbrev Store := List Task

/-- `this.tasks.get(id)` — the entry with the given id, if any. -/
def getTask (store : Store) (id : Nat) : Option Task :=
  store.find? (fun t => t.id == id)

/-- `this.tasks.set(u.id, u)` — replace the entry with the same key in place,
or append when the key is new (JavaScript `Map` insertion-order semantics). -/
def setTask : Store → Task → Store
  | [], u => [u]
  | t :: rest, u => if t.id == u.id then u :: rest else t :: setTask rest u

/-- JavaScript truthiness of an optional numeric id (`if (targetTaskId)`):
`undefined` and `0` are falsy. -/
def truthy : Option Nat → Bool
  | some n => n != 0
  | none => false

/-- The comparator `(a, b) => (a.position || 0) - (b.position || 0)`. -/
def posCmp (a b : Task) : Int :=
  a.position - b.position

/-- The comparator used on `finalTasksOrdering` in
`MemStorage.updateTaskStatus` (storage.ts lines 274-281), transcribed
branch-for-branch; `movedId` is the id of the task being moved. -/
def moveCmp (movedId : Nat) (a b : Task) : Int :=
  if a.id == movedId then
    a.position - (if b.id == movedId then a.position else b.position)
  else if b.id == movedId then
    (if a.id == movedId then b.position else a.position) - b.position
  else
    a.position - b.position

/-- Insert into a comparator-sorted list, before the first element that does
not strictly precede `x`; the building block of a stable sort. -/
def insertC (c : Task → Task → Int) (x : Task) : List Task → List Task
  | [] => [x]
  | y :: ys => if c x y ≤ 0 then x :: y :: ys else y :: insertC c x ys

/-- Stable sort with comparator `c`.  For a consistent comparator this agrees
with JavaScript's (stable) `Array.prototype.sort`. -/
def sortC (c : Task → Task → Int) : List Task → List Task
  | [] => []
  | x :: xs => insertC c x (sortC c xs)

/-- The tasks of one column in display order:
`Array.from(this.tasks.values()).filter(t => t.status === status)
 .sort((a, b) => (a.position || 0) - (b.position || 0))`. -/
def colTasks (store : Store) (status : String) : List Task :=
  sortC posCmp (store.filter (fun t => t.status == status))

/-- The position values of one column, in display order. -/
def colPositions (store : Store) (status : String) : List Int :=
  (colTasks store status).map (fun t => t.position)

/-- The spec's density invariant for one column: the positions, read in
column display order, are exactly `0, 1, ..., N-1`. -/
def denseCol (store : Store) (status : String) : Prop :=
  colPositions store status =
    (List.range (colTasks store status).length).map (fun (n : Nat) => (n : Int))

/-- `Array.prototype.findIndex` wrapped into an `Option` (the `-1` sentinel
becomes `none`). -/
def findIndexOf (p : Task → Bool) : List Task → Option Nat
  | [] => none
  | t :: rest => if p t then some 0 else (findIndexOf p rest).map (· + 1)

/-- The renumbering loop of `MemStorage.updateTaskStatus` (storage.ts lines
284-299): walk the final ordering, giving the `i`-th task position `i`, but
only writing tasks whose stored position differs ("Only update if position
has changed"). -/
def renumber (store : Store) : List Task → Nat → Store
  | [], _ => store
  | t :: rest, i =>
    if t.position == (i : Int) then
      renumber store rest (i + 1)
    else
      renumber (setTask store { t with position := (i : Int) }) rest (i + 1)

/-- The top-placement loop of `MemStorage.updateTaskStatus` (storage.ts lines
301-316): skip the moved task, shift every other task of the target column
down by one. -/
def shiftDown (movedId : Nat) : Store → List Task → Store
  | store, [] => store
  | store, t :: rest =>
    if t.id == movedId then
      shiftDown movedId store rest
    else
      shiftDown movedId (setTask store { t with position := t.position + 1 }) rest

/-- The final `updatedTasks.map((t, idx) => ...)` of
`MemStorage.reorderTaskInColumn` (storage.ts lines 395-405): give the `i`-th
task of the desired ordering position `i`, write every task, and collect the
written tasks as the returned list. -/
def renumAll (store : Store) : List Task → Nat → List Task × Store
  | [], _ => ([], store)
  | t :: rest, i =>
    let t2 : Task := { t with position := (i : Int) }
    let r := renumAll (setTask store t2) rest (i + 1)
    (t2 :: r.1, r.2)

/-- `MemStorage.updateTaskStatus(id, status, targetPosition?, targetTaskId?,
placeBefore)` (storage.ts lines 220-322).  Returns the task value the method
returns (`undefined` as `none` when the task is unknown) together with the
store after all writes.  `placeBefore` is accepted but never read by the
method body, exactly as in the source. -/
def updateTaskStatus (store : Store) (id : Nat) (status : String)
    (targetPosition : Option Int) (targetTaskId : Option Nat)
    (_placeBefore : Bool) : Option Task × Store :=
  match getTask store id with
  | none => (none, store)
  | some task =>
    -- let toTop = targetPosition === undefined && targetTaskId === undefined
    let toTop0 : Bool := targetPosition.isNone && targetTaskId.isNone
    let step : Int × Bool :=
      if truthy targetTaskId then
        match getTask store (targetTaskId.getD 0) with
        | some targetTask => (targetTask.position, false)
        | none => (0, toTop0)
      else
        match targetPosition with
        | some p => (p, toTop0)
        | none => (0, toTop0)
    let insertPosition := step.1
    let toTop := step.2
    let updatedTask : Task := { task with status := status, position := insertPosition }
    let store1 := setTask store updatedTask
    let tasksInTargetColumn := colTasks store1 status
    if toTop then
      (some updatedTask, shiftDown id store1 tasksInTargetColumn)
    else
      let finalTasksOrdering := sortC (moveCmp id) tasksInTargetColumn
      (some updatedTask, renumber store1 finalTasksOrdering 0)

/-- `MemStorage.updateTaskPosition(id, position)` (storage.ts lines 324-334):
write the supplied position verbatim to the one task. -/
def updateTaskPosition (store : Store) (id : Nat) (position : Int) :
    Option Task × Store :=
  match getTask store id with
  | none => (none, store)
  | some task =>
    let updatedTask : Task := { task with position := position }
    (some updatedTask, setTask store updatedTask)

/-- `MemStorage.reorderTaskInColumn(taskId, targetTaskId, placeAfter)`
(storage.ts lines 336-411).  Returns the task list the method returns and
the store after all writes.  In the error branches the method only reads
(`task?.status || targetTask?.status || ''` picks the first status present;
statuses in this system are non-empty strings). -/
def reorderTaskInColumn (store : Store) (taskId targetTaskId : Nat)
    (placeAfter : Bool) : List Task × Store :=
  match getTask store taskId, getTask store targetTaskId with
  | some task, some targetTask =>
    if task.status != targetTask.status then
      (colTasks store task.status, store)
    else
      let tasksInColumn := colTasks store task.status
      let updatedTasks := tasksInColumn.filter (fun t => t.id != task.id)
      match findIndexOf (fun t => t.id == targetTask.id) updatedTasks with
      | none => (tasksInColumn, store)
      | some targetIndex =>
        let insertPosition := if placeAfter then targetIndex + 1 else targetIndex
        let updatedTasks2 :=
          updatedTasks.take insertPosition ++ task :: updatedTasks.drop insertPosition
        renumAll store updatedTasks2 0
  | some task, none => (colTasks store task.status, store)
  | none, some targetTask => (colTasks store targetTask.status, store)
  | none, none => (colTasks store (""), store)

/-- `MemStorage.createTask` (storage.ts lines 158-192), specialised to the
modelled fields: when no position is supplied the task is placed at the
bottom of its column (`max existing position + 1`, or `0` in an empty
column).  `nextId` stands for `this.taskCurrentId++`. -/
def createTask (store : Store) (nextId : Nat) (title status : String)
    (position : Option Int) : Task × Store :=
  let tasksInColumn := store.filter (fun t => t.status == status)
  let pos : Int :=
    match position with
    | some p => p
    | none =>
      match tasksInColumn with
      | [] => 0
      | t :: rest => (rest.foldl (fun m u => max m u.position) t.position) + 1
  let task : Task := { id := nextId, title := title, status := status, position := pos }
  (task, setTask store task)

/-! ### HTTP route handlers (`server/routes.ts`)

Each handler is embedded as a function from the store and the parsed request
to the HTTP status code, the JSON payload, and the store afterwards.
`res.json(x)` with no explicit status is code 200. -/

/-- The body accepted by `PATCH /api/tasks/:id/status` (routes.ts lines
113-121), after zod validation. -/
structure StatusBody where
  status : String
  targetTaskId : Option Nat
  position : Option Int
  toTop : Option Bool
  forceTop : Option Bool
  isNewColumn : Option Bool
  placeBefore : Option Bool
  deriving Repr

/-- The handler of `PATCH /api/tasks/:id/status` (routes.ts lines 106-182):
cross-column moves dispatch on target task / explicit position / top
placement; a same-column request with a truthy target becomes a reorder with
`placeAfter = !placeBefore`. -/
def statusRoute (store : Store) (id : Nat) (body : StatusBody) :
    (Nat × Option Task) × Store :=
  match getTask store id with
  | none => ((404, none), store)
  | some task =>
    if task.status != body.status then
      if truthy body.targetTaskId then
        let r := updateTaskStatus store id body.status none body.targetTaskId
          (body.placeBefore.getD false)
        ((200, r.1), r.2)
      else
        match body.position with
        | some p =>
          let r := updateTaskStatus store id body.status (some p) none false
          ((200, r.1), r.2)
        | none =>
          if body.toTop.getD false || body.forceTop.getD false || body.isNewColumn.getD false then
            let r := updateTaskStatus store id body.status none none false
            ((200, r.1), r.2)
          else
            let r := updateTaskStatus store id body.status none none false
            ((200, r.1), r.2)
    else
      if truthy body.targetTaskId then
        let placeAfter :=
          match body.placeBefore with
          | none => false
          | some b => !b
        let r := reorderTaskInColumn store id (body.targetTaskId.getD 0) placeAfter
        ((200, some ((r.1.find? (fun t => t.id == id)).getD task)), r.2)
      else
        let r := updateTaskStatus store id body.status body.position body.targetTaskId
          (body.placeBefore.getD false)
        ((200, r.1), r.2)

/-- The handler of `PATCH /api/tasks/:id/position` (routes.ts lines
185-208). -/
def positionRoute (store : Store) (id : Nat) (position : Int) :
    (Nat × Option Task) × Store :=
  let r := updateTaskPosition store id position
  match r.1 with
  | none => ((404, none), store)
  | some t => ((200, some t), r.2)

/-- The handler of `POST /api/tasks/:id/reorder` (routes.ts lines 211-263),
including the move-up/move-down direction heuristic that turns the optional
`position` string (`"before"` / `"after"`) into `placeAfter`. -/
def reorderRoute (store : Store) (id : Nat) (targetTaskId : Nat)
    (position : Option String) : (Nat × List Task) × Store :=
  if id == targetTaskId then ((400, []), store)
  else
    match getTask store id, getTask store targetTaskId with
    | some sourceTask, some targetTask =>
      let isMovingDown :=
        sourceTask.status == targetTask.status &&
          sourceTask.position < targetTask.position
      let placeAfter :=
        position == some ("after") || (isMovingDown && position != some ("before"))
      let r := reorderTaskInColumn store id targetTaskId placeAfter
      ((200, r.1), r.2)
    | _, _ => ((404, []), store)

/-! ### The command log (`client/src/contexts/CommandHistoryContext.tsx`)

`CommandHistoryProvider` keeps two stacks, `commandHistory` (the spec's
`past`, top at the end) and `redoStack` (the spec's `future`, top at the
end).  A command's `execute()`/`undo()` are asynchronous effects whose only
influence on the stack discipline is whether their promise resolves or
rejects, so the log is embedded over an arbitrary command type `α` together
with resolution predicates.  Every branch of `executeCommand` and `undo`
catches its error (showing a toast at most), so the promise the caller
awaits never rejects; the `rejected` component of a result records whether
it does. -/

/-- The two stacks of the command log. -/
structure CmdHistory (α : Type) where
  past : List α
  future : List α
  deriving Repr, DecidableEq

/-- `const canUndo = commandHistory.length > 0`. -/
def canUndo {α : Type} (h : CmdHistory α) : Bool :=
  decide (0 < h.past.length)

/-- `const canRedo = redoStack.length > 0`. -/
def canRedo {α : Type} (h : CmdHistory α) : Bool :=
  decide (0 < h.future.length)

/-- `executeCommand` (CommandHistoryContext.tsx lines 205-229): run
`cmd.execute()`; on success append to `past` and clear `future`; on failure
catch the error (optionally toast) and leave both stacks unchanged.  The
second component records whether the promise the caller awaits rejects: it
never does, because the catch block does not rethrow. -/
def executeCommand {α : Type} (execOk : α → Bool) (h : CmdHistory α) (c : α) :
    CmdHistory α × Bool :=
  if execOk c then
    ({ past := h.past ++ [c], future := [] }, false)
  else
    (h, false)

/-- The result of the provider's `undo` callback: the stacks afterwards,
whether the success toast was shown, and whether the promise rejects. -/
structure UndoRes (α : Type) where
  hist : CmdHistory α
  reportedSuccess : Bool
  rejected : Bool
  deriving Repr, DecidableEq

/-- `undo` (CommandHistoryContext.tsx lines 232-259): no-op when `past` is
empty; otherwise read (not pop) the top of `past` and run its `undo()`; on
success remove it from `past`, append it to `future` and toast success; on
failure catch the error, toast failure, and change neither stack.  No branch
rethrows, so the promise never rejects. -/
def undoCommand {α : Type} (undoOk : α → Bool) (h : CmdHistory α) : UndoRes α :=
  if h.past.isEmpty then
    { hist := h, reportedSuccess := false, rejected := false }
  else
    match h.past.getLast? with
    | none => { hist := h, reportedSuccess := false, rejected := false }
    | some lastCommand =>
      if undoOk lastCommand then
        { hist := { past := h.past.dropLast, future := h.future ++ [lastCommand] },
          reportedSuccess := true, rejected := false }
      else
        { hist := h, reportedSuccess := false, rejected := false }

/-! ### Concrete commands (`CommandHistoryContext.tsx`) -/

/-- `MoveTaskCommand.execute` (lines 51-91): throws `Invalid task ID` before
the `try` when the captured task id is not positive; inside the `try` the
API call's error is rethrown.  `apiOk` says whether the underlying
`PATCH /api/tasks/:id/status` request succeeds; the promise resolves exactly
when the id is valid and the request succeeds. -/
def moveExecuteOk (taskId : Int) (apiOk : Bool) : Bool :=
  decide (0 < taskId) && apiOk

/-- `MoveTaskCommand.undo` (lines 93-116): throws `Invalid task ID` before
the `try` when the captured task id is not positive; every error of the
underlying status-restore request is caught and only logged ("Continuing
despite undo error"), so the promise resolves whenever the id is valid,
regardless of the request's outcome. -/
def moveUndoOk (taskId : Int) (_apiOk : Bool) : Bool :=
  decide (0 < taskId)

/-- The state captured by `ReorderTaskCommand` (lines 120-133): the column's
status and the pre-operation ordering snapshot. -/
structure ReorderCmd where
  status : String
  previousOrder : List Task
  deriving Repr, DecidableEq

/-- The `ReorderTaskCommand` constructor: snapshot the tasks of the column,
sorted by position, into `previousOrder`. -/
def mkReorderCmd (status : String) (allTasks : List Task) : ReorderCmd :=
  { status := status
    previousOrder := sortC posCmp (allTasks.filter (fun t => t.status == status)) }

/-- The effect of `ReorderTaskCommand.undo` (lines 160-170) on the task
store: the body only invalidates the react-query cache ("For now, just
invalidate the cache") and issues no store write, so the store is returned
unchanged. -/
def reorderUndoStore (store : Store) : Store :=
  store

/-! ### Store well-formedness and basic lemmas -/

/-- A store is well formed when no two entries share an id; `MemStorage`
guarantees this because `Map` keys are unique and every entry is stored
under its own id. -/
def wfStore (store : Store) : Prop :=
  (store.map (fun t => t.id)).Nodup

theorem getTask_cons (t : Task) (rest : Store) (x : Nat) :
    getTask (t :: rest) x = if t.id = x then some t else getTask rest x := by
  by_cases h : t.id = x <;> simp [getTask, List.find?_cons, h]

theorem setTask_cons (t : Task) (rest : Store) (u : Task) :
    setTask (t :: rest) u = if t.id = u.id then u :: rest else t :: setTask rest u := by
  by_cases h : t.id = u.id <;> simp [setTask, h]

theorem getTask_eq_some {store : Store} {id : Nat} {t : Task}
    (h : getTask store id = some t) : t ∈ store ∧ t.id = id := by
  refine ⟨List.mem_of_find?_eq_some h, ?_⟩
  have := List.find?_some h
  simpa using this

theorem getTask_setTask_ne (store : Store) (u : Task) {x : Nat} (h : x ≠ u.id) :
    getTask (setTask store u) x = getTask store x := by
  induction store with
  | nil =>
    rw [show setTask [] u = [u] from rfl, getTask_cons, if_neg (fun hx => h hx.symm)]
  | cons t rest ih =>
    rw [setTask_cons]
    by_cases hid : t.id = u.id
    · rw [if_pos hid, getTask_cons, getTask_cons, if_neg (fun hx : u.id = x => h hx.symm),
        if_neg (fun hx : t.id = x => h (hid.symm.trans hx).symm)]
    · rw [if_neg hid, getTask_cons, getTask_cons]
      by_cases hx : t.id = x
      · rw [if_pos hx, if_pos hx]
      · rw [if_neg hx, if_neg hx, ih]

theorem mem_map_id_setTask {store : Store} {u : Task} {x : Nat}
    (h : x ∈ (setTask store u).map (fun t => t.id)) :
    x = u.id ∨ x ∈ store.map (fun t => t.id) := by
  induction store with
  | nil =>
    simp [setTask] at h
    exact Or.inl h
  | cons t rest ih =>
    rw [setTask_cons] at h
    by_cases hid : t.id = u.id
    · rw [if_pos hid] at h
      simp at h
      rcases h with h | h
      · exact Or.inl h
      · exact Or.inr (by simp; exact Or.inr h)
    · rw [if_neg hid] at h
      simp at h
      rcases h with h | h
      · exact Or.inr (by simp; exact Or.inl h)
      · rcases ih (by simpa using h) with h' | h'
        · exact Or.inl h'
        · exact Or.inr (by simp at h' ⊢; exact Or.inr h')

theorem wfStore_setTask {store : Store} (u : Task) (h : wfStore store) :
    wfStore (setTask store u) := by
  induction store with
  | nil => simp [wfStore, setTask]
  | cons t rest ih =>
    rw [wfStore, List.map_cons, List.nodup_cons] at h
    by_cases hid : t.id = u.id
    · rw [wfStore, setTask_cons, if_pos hid, List.map_cons, List.nodup_cons]
      exact ⟨hid ▸ h.1, h.2⟩
    · rw [wfStore, setTask_cons, if_neg hid, List.map_cons, List.nodup_cons]
      refine ⟨fun hmem => ?_, ih h.2⟩
      rcases mem_map_id_setTask hmem with h' | h'
      · exact hid h'
      · exact h.1 h'

theorem mem_unique_of_wf {store : Store} (hwf : wfStore store) {t s : Task}
    (ht : t ∈ store) (hs : s ∈ store) (hid : t.id = s.id) : t = s := by
  induction store with
  | nil => cases ht
  | cons u rest ih =>
    rw [wfStore, List.map_cons, List.nodup_cons] at hwf
    rcases List.mem_cons.mp ht with rfl | ht' <;> rcases List.mem_cons.mp hs with rfl | hs'
    · rfl
    · exact absurd (by rw [hid]; exact List.mem_map_of_mem (fun t => t.id) hs') hwf.1
    · exact absurd (by rw [← hid]; exact List.mem_map_of_mem (fun t => t.id) ht') hwf.1
    · exact ih hwf.2 ht' hs'

theorem getTask_of_mem {store : Store} (hwf : wfStore store) {t : Task}
    (ht : t ∈ store) : getTask store t.id = some t := by
  induction store with
  | nil => cases ht
  | cons u rest ih =>
    rw [wfStore, List.map_cons, List.nodup_cons] at hwf
    rw [getTask_cons]
    rcases List.mem_cons.mp ht with rfl | ht'
    · rw [if_pos rfl]
    · rw [if_neg (fun hx => hwf.1 (by rw [hx]; exact List.mem_map_of_mem (fun t => t.id) ht'))]
      exact ih hwf.2 ht'

theorem setTask_self {store : Store} {t : Task}
    (h : getTask store t.id = some t) : setTask store t = store := by
  induction store with
  | nil => simp [getTask, List.find?] at h
  | cons u rest ih =>
    rw [getTask_cons] at h
    rw [setTask_cons]
    by_cases hu : u.id = t.id
    · rw [if_pos hu] at h
      rw [if_pos hu, Option.some_inj.mp h]
    · rw [if_neg hu] at h
      rw [if_neg hu, ih h]

theorem mem_setTask_self (store : Store) (u : Task) : u ∈ setTask store u := by
  induction store with
  | nil => simp [setTask]
  | cons t rest ih =>
    rw [setTask_cons]
    by_cases h : t.id = u.id
    · rw [if_pos h]; exact List.mem_cons_self _ _
    · rw [if_neg h]; exact List.mem_cons_of_mem _ ih

theorem mem_setTask_of_ne {store : Store} {t u : Task}
    (ht : t ∈ store) (h : t.id ≠ u.id) : t ∈ setTask store u := by
  induction store with
  | nil => cases ht
  | cons s rest ih =>
    rw [setTask_cons]
    rcases List.mem_cons.mp ht with rfl | ht'
    · rw [if_neg h]
      exact List.mem_cons_self _ _
    · by_cases hs : s.id = u.id
      · rw [if_pos hs]
        exact List.mem_cons_of_mem _ ht'
      · rw [if_neg hs]
        exact List.mem_cons_of_mem _ (ih ht')

/-! ### Sorting lemmas -/

theorem insertC_perm (c : Task → Task → Int) (x : Task) (l : List Task) :
    List.Perm (insertC c x l) (x :: l) := by
  induction l with
  | nil => rfl
  | cons y ys ih =>
    rw [insertC]
    by_cases h : c x y ≤ 0
    · rw [if_pos h]
    · rw [if_neg h]
      exact (ih.cons y).trans (List.Perm.swap x y ys)

theorem sortC_perm (c : Task → Task → Int) (l : List Task) :
    List.Perm (sortC c l) l := by
  induction l with
  | nil => rfl
  | cons x xs ih =>
    exact (insertC_perm c x (sortC c xs)).trans (ih.cons x)

theorem mem_insertC {c : Task → Task → Int} {x z : Task} {l : List Task}
    (h : z ∈ insertC c x l) : z = x ∨ z ∈ l := by
  have := (insertC_perm c x l).mem_iff.mp h
  simpa using this

theorem insertC_pairwise_pos {x : Task} {l : List Task}
    (h : l.Pairwise (fun a b => a.position ≤ b.position)) :
    (insertC posCmp x l).Pairwise (fun a b => a.position ≤ b.position) := by
  induction l with
  | nil => simp [insertC]
  | cons y ys ih =>
    rw [insertC]
    rw [List.pairwise_cons] at h
    by_cases hc : posCmp x y ≤ 0
    · rw [if_pos hc]
      have hxy : x.position ≤ y.position := sub_nonpos.mp hc
      refine List.pairwise_cons.mpr ⟨?_, List.pairwise_cons.mpr h⟩
      intro z hz
      rcases List.mem_cons.mp hz with rfl | hz'
      · exact hxy
      · exact le_trans hxy (h.1 z hz')
    · rw [if_neg hc]
      have hyx : y.position ≤ x.position := le_of_lt (sub_pos.mp (not_le.mp hc))
      refine List.pairwise_cons.mpr ⟨?_, ih h.2⟩
      intro z hz
      rcases mem_insertC hz with rfl | hz'
      · exact hyx
      · exact h.1 z hz'

theorem sortC_posCmp_pairwise (l : List Task) :
    (sortC posCmp l).Pairwise (fun a b => a.position ≤ b.position) := by
  induction l with
  | nil => simp [sortC]
  | cons x xs ih => exact insertC_pairwise_pos ih

/-! ### Characterising batched store writes -/

/-- Apply a list of writes to the store, left to right. -/
def writeList (store : Store) (ws : List Task) : Store :=
  ws.foldl setTask store

/-- The task the store will hold for `t`'s key after the writes `ws`: the
(unique, when ids are distinct) element of `ws` carrying `t.id`, else `t`
itself. -/
def subst (ws : List Task) (t : Task) : Task :=
  match ws.find? (fun w => w.id == t.id) with
  | some w => w
  | none => t

theorem subst_id (ws : List Task) (t : Task) : (subst ws t).id = t.id := by
  rw [subst]
  cases h : ws.find? (fun w => w.id == t.id) with
  | none => rfl
  | some w =>
    have := List.find?_some h
    simpa using this

theorem subst_nil (t : Task) : subst [] t = t := rfl

theorem find?_id_of_nodup {ws : List Task} {w : Task}
    (hnd : (ws.map (fun t => t.id)).Nodup) (hw : w ∈ ws) :
    ws.find? (fun x => x.id == w.id) = some w := by
  induction ws with
  | nil => cases hw
  | cons v rest ih =>
    rw [List.map_cons, List.nodup_cons] at hnd
    rcases List.mem_cons.mp hw with rfl | hw'
    · simp [List.find?_cons]
    · have hne : (v.id == w.id) = false := by
        refine beq_eq_false_iff_ne.mpr (fun hv => hnd.1 ?_)
        rw [hv]
        exact List.mem_map_of_mem (fun t => t.id) hw'
      simp only [List.find?_cons, hne]
      exact ih hnd.2 hw'

theorem subst_cons {w : Task} {ws : List Task}
    (hnd : ((w :: ws).map (fun t => t.id)).Nodup) (t : Task) :
    subst (w :: ws) t = subst ws (if t.id == w.id then w else t) := by
  rw [List.map_cons, List.nodup_cons] at hnd
  by_cases h : t.id = w.id
  · have hfind : ws.find? (fun x => x.id == w.id) = none := by
      rw [List.find?_eq_none]
      intro x hx hbeq
      refine hnd.1 ?_
      rw [← (show x.id = w.id by simpa using hbeq)]
      exact List.mem_map_of_mem (fun t => t.id) hx
    simp [subst, List.find?_cons, h, hfind]
  · simp [subst, List.find?_cons, h, Ne.symm h]

theorem setTask_eq_map {store : Store} {u : Task} (hwf : wfStore store)
    (hmem : ∃ t ∈ store, t.id = u.id) :
    setTask store u = store.map (fun t => if t.id == u.id then u else t) := by
  induction store with
  | nil => simp at hmem
  | cons s rest ih =>
    rw [wfStore, List.map_cons, List.nodup_cons] at hwf
    rw [setTask_cons, List.map_cons]
    by_cases hs : s.id = u.id
    · rw [if_pos hs, if_pos (by simpa using hs)]
      have hrest : rest.map (fun t => if t.id == u.id then u else t) = rest := by
        have hmap : rest.map (fun t => if t.id == u.id then u else t) = rest.map id := by
          refine List.map_congr_left (fun t ht => ?_)
          have htu : ¬t.id = u.id := fun htu => hwf.1 (by
            rw [hs, ← htu]
            exact List.mem_map_of_mem (fun t => t.id) ht)
          simp [htu]
        rw [hmap, List.map_id]
      rw [hrest]
    · rw [if_neg hs, if_neg (by simpa using hs)]
      obtain ⟨t, ht, htid⟩ := hmem
      rcases List.mem_cons.mp ht with rfl | ht'
      · exact absurd htid hs
      · rw [ih hwf.2 ⟨t, ht', htid⟩]

theorem writeList_eq_map {ws : List Task} : ∀ {store : Store}, wfStore store →
    (ws.map (fun t => t.id)).Nodup →
    (∀ w ∈ ws, ∃ t ∈ store, t.id = w.id) →
    writeList store ws = store.map (subst ws) := by
  induction ws with
  | nil =>
    intro store _ _ _
    rw [writeList, List.foldl_nil]
    have h : store.map (subst []) = store.map id :=
      List.map_congr_left (fun t _ => subst_nil t)
    rw [h, List.map_id]
  | cons w ws ih =>
    intro store hwf hnd hpres
    have hnd' := hnd
    rw [List.map_cons, List.nodup_cons] at hnd'
    have hpw : ∃ t ∈ store, t.id = w.id := hpres w (List.mem_cons_self _ _)
    have hset : setTask store w = store.map (fun t => if t.id == w.id then w else t) :=
      setTask_eq_map hwf hpw
    have hwf1 : wfStore (setTask store w) := wfStore_setTask w hwf
    have hpres1 : ∀ v ∈ ws, ∃ t ∈ setTask store w, t.id = v.id := by
      intro v hv
      obtain ⟨t, ht, htid⟩ := hpres v (List.mem_cons_of_mem _ hv)
      have hvw : v.id ≠ w.id := fun h =>
        hnd'.1 (h ▸ List.mem_map_of_mem (fun t => t.id) hv)
      exact ⟨t, mem_setTask_of_ne ht (htid.symm ▸ hvw), htid⟩
    have hstep : writeList store (w :: ws) = writeList (setTask store w) ws := rfl
    rw [hstep, ih hwf1 hnd'.2 hpres1, hset, List.map_map]
    refine List.map_congr_left (fun t _ => ?_)
    rw [Function.comp_apply, ← subst_cons hnd t]

theorem map_id_writeList {store : Store} {ws : List Task} (hwf : wfStore store)
    (hnd : (ws.map (fun t => t.id)).Nodup)
    (hpres : ∀ w ∈ ws, ∃ t ∈ store, t.id = w.id) :
    (writeList store ws).map (fun t => t.id) = store.map (fun t => t.id) := by
  rw [writeList_eq_map hwf hnd hpres, List.map_map]
  exact List.map_congr_left (fun t _ => subst_id ws t)

theorem wfStore_writeList {store : Store} {ws : List Task} (hwf : wfStore store)
    (hnd : (ws.map (fun t => t.id)).Nodup)
    (hpres : ∀ w ∈ ws, ∃ t ∈ store, t.id = w.id) :
    wfStore (writeList store ws) := by
  rw [wfStore, map_id_writeList hwf hnd hpres]
  exact hwf

theorem getTask_writeList {store : Store} {ws : List Task} (hwf : wfStore store)
    (hnd : (ws.map (fun t => t.id)).Nodup)
    (hpres : ∀ w ∈ ws, ∃ t ∈ store, t.id = w.id)
    {w : Task} (hw : w ∈ ws) :
    getTask (writeList store ws) w.id = some w := by
  rw [writeList_eq_map hwf hnd hpres]
  obtain ⟨t, ht, htid⟩ := hpres w hw
  have hfind : ws.find? (fun x => x.id == t.id) = some w := by
    rw [htid]
    exact find?_id_of_nodup hnd hw
  have hsub : subst ws t = w := by
    rw [subst, hfind]
  have hwfm : wfStore (store.map (subst ws)) := by
    have hids : (store.map (subst ws)).map (fun t => t.id) = store.map (fun t => t.id) := by
      rw [List.map_map]
      exact List.map_congr_left (fun t _ => subst_id ws t)
    rw [wfStore, hids]
    exact hwf
  have hmem : subst ws t ∈ store.map (subst ws) := List.mem_map_of_mem _ ht
  have hget := getTask_of_mem hwfm hmem
  rw [hsub] at hget
  exact hget

/-! ### The reindexing write lists produced by the two renumbering loops -/

/-- The writes the renumbering loops perform, as a list: the `j`-th element
of `ws` with its position overwritten by `i + j`. -/
def reindexFrom : Nat → List Task → List Task
  | _, [] => []
  | i, t :: rest => { t with position := (i : Int) } :: reindexFrom (i + 1) rest

theorem map_id_reindexFrom : ∀ (i : Nat) (ws : List Task),
    (reindexFrom i ws).map (fun t => t.id) = ws.map (fun t => t.id)
  | _, [] => rfl
  | i, t :: rest => by
    rw [reindexFrom, List.map_cons, List.map_cons, map_id_reindexFrom (i + 1) rest]

theorem mem_reindexFrom : ∀ {i : Nat} {ws : List Task} {w : Task},
    w ∈ reindexFrom i ws → ∃ v ∈ ws, w.id = v.id ∧ w.status = v.status
  | _, [], _, h => by cases h
  | i, t :: rest, w, h => by
    rcases List.mem_cons.mp h with rfl | h'
    · exact ⟨t, List.mem_cons_self _ _, rfl, rfl⟩
    · obtain ⟨v, hv, hid, hst⟩ := mem_reindexFrom h'
      exact ⟨v, List.mem_cons_of_mem _ hv, hid, hst⟩

theorem positions_reindexFrom : ∀ (ws : List Task) (i : Nat),
    (reindexFrom i ws).map (fun t => t.position) =
      (List.range ws.length).map (fun j => ((i + j : Nat) : Int))
  | [], _ => rfl
  | t :: rest, i => by
    rw [reindexFrom, List.map_cons, positions_reindexFrom rest (i + 1),
      List.length_cons, List.range_succ_eq_map, List.map_cons, List.map_map]
    show (i : Int) :: List.map (fun j => ((i + 1 + j : Nat) : Int)) (List.range rest.length) =
      ((i + 0 : Nat) : Int) ::
        List.map ((fun j => ((i + j : Nat) : Int)) ∘ Nat.succ) (List.range rest.length)
    rw [Nat.add_zero]
    congr 1
    refine List.map_congr_left (fun j _ => ?_)
    simp only [Function.comp_apply]
    omega

theorem length_reindexFrom : ∀ (i : Nat) (ws : List Task),
    (reindexFrom i ws).length = ws.length
  | _, [] => rfl
  | i, t :: rest => by
    rw [reindexFrom, List.length_cons, List.length_cons, length_reindexFrom (i + 1) rest]

theorem renumAll_eq : ∀ (ws : List Task) (store : Store) (i : Nat),
    renumAll store ws i = (reindexFrom i ws, writeList store (reindexFrom i ws))
  | [], _, _ => rfl
  | t :: rest, store, i => by
    simp only [renumAll]
    rw [renumAll_eq rest (setTask store { t with position := (i : Int) }) (i + 1)]
    rfl

theorem renumber_eq_writeList : ∀ (ws : List Task) (store : Store) (i : Nat),
    (ws.map (fun t => t.id)).Nodup →
    (∀ w ∈ ws, getTask store w.id = some w) →
    renumber store ws i = writeList store (reindexFrom i ws)
  | [], _, _, _, _ => rfl
  | t :: rest, store, i, hnd, hcur => by
    rw [List.map_cons, List.nodup_cons] at hnd
    rw [renumber]
    by_cases hp : t.position = (i : Int)
    · rw [if_pos (by simpa using hp)]
      have ht2 : ({ t with position := (i : Int) } : Task) = t := by
        cases t
        simp_all
      rw [show reindexFrom i (t :: rest) =
        ({ t with position := (i : Int) } : Task) :: reindexFrom (i + 1) rest from rfl, ht2]
      rw [show writeList store (t :: reindexFrom (i + 1) rest) =
        writeList (setTask store t) (reindexFrom (i + 1) rest) from rfl]
      rw [setTask_self (hcur t (List.mem_cons_self _ _))]
      exact renumber_eq_writeList rest store (i + 1) hnd.2
        (fun w hw => hcur w (List.mem_cons_of_mem _ hw))
    · rw [if_neg (by simpa using hp)]
      refine renumber_eq_writeList rest (setTask store { t with position := (i : Int) })
        (i + 1) hnd.2 (fun w hw => ?_)
      rw [getTask_setTask_ne store _ (show w.id ≠ ({ t with position := (i : Int) } : Task).id
        from fun hx => hnd.1 (hx ▸ List.mem_map_of_mem (fun t => t.id) hw))]
      exact hcur w (List.mem_cons_of_mem _ hw)

theorem getTask_renumber_ne {x : Nat} : ∀ (ws : List Task) (store : Store) (i : Nat),
    (∀ w ∈ ws, w.id ≠ x) → getTask (renumber store ws i) x = getTask store x
  | [], _, _, _ => rfl
  | t :: rest, store, i, h => by
    rw [renumber]
    by_cases hp : t.position = (i : Int)
    · rw [if_pos (by simpa using hp)]
      exact getTask_renumber_ne rest store (i + 1) (fun w hw => h w (List.mem_cons_of_mem _ hw))
    · rw [if_neg (by simpa using hp)]
      rw [getTask_renumber_ne rest _ (i + 1) (fun w hw => h w (List.mem_cons_of_mem _ hw))]
      exact getTask_setTask_ne store _ (fun hx => h t (List.mem_cons_self _ _) hx.symm)

theorem getTask_shiftDown_ne {m x : Nat} : ∀ (ws : List Task) (store : Store),
    (∀ w ∈ ws, w.id ≠ x) → getTask (shiftDown m store ws) x = getTask store x
  | [], _, _ => rfl
  | t :: rest, store, h => by
    rw [shiftDown]
    by_cases hm : t.id = m
    · rw [if_pos (by simpa using hm)]
      exact getTask_shiftDown_ne rest store (fun w hw => h w (List.mem_cons_of_mem _ hw))
    · rw [if_neg (by simpa using hm)]
      rw [getTask_shiftDown_ne rest _ (fun w hw => h w (List.mem_cons_of_mem _ hw))]
      exact getTask_setTask_ne store _ (fun hx => h t (List.mem_cons_self _ _) hx.symm)

/-! ### Extracting a column after a batch of writes -/

theorem find?_isSome_of_exists {p : Task → Bool} :
    ∀ {l : List Task}, (∃ x ∈ l, p x = true) → ∃ w, l.find? p = some w
  | [], h => by simp at h
  | t :: rest, h => by
    rw [List.find?_cons]
    by_cases hp : p t = true
    · rw [hp]
      exact ⟨t, rfl⟩
    · obtain ⟨x, hx, hpx⟩ := h
      rcases List.mem_cons.mp hx with rfl | hx'
      · exact absurd hpx hp
      · rw [show p t = false from Bool.eq_false_iff.mpr hp]
        exact find?_isSome_of_exists ⟨x, hx', hpx⟩

theorem filter_map_comm (f : Task → Task) (p : Task → Bool) :
    ∀ (store : Store), (∀ t ∈ store, p (f t) = p t) →
    (store.map f).filter p = (store.filter p).map f
  | [], _ => rfl
  | t :: rest, h => by
    have ht := h t (List.mem_cons_self _ _)
    have ih := filter_map_comm f p rest (fun u hu => h u (List.mem_cons_of_mem _ hu))
    by_cases hp : p t = true <;> simp [List.filter_cons, ht, hp, ih]

/-- The substituted task keyed by a raw id (total on ids present in `ws`). -/
def pick (ws : List Task) (i : Nat) : Task :=
  match ws.find? (fun x => x.id == i) with
  | some w => w
  | none => { id := i, title := "", status := "", position := 0 }

theorem subst_eq_pick {ws : List Task} {t : Task}
    (h : ∃ x ∈ ws, (x.id == t.id) = true) : subst ws t = pick ws t.id := by
  obtain ⟨w, hfind⟩ := find?_isSome_of_exists h
  rw [subst, pick, hfind]

theorem pick_of_mem_nodup {ws : List Task} {w : Task}
    (hnd : (ws.map (fun t => t.id)).Nodup) (hw : w ∈ ws) : pick ws w.id = w := by
  rw [pick, find?_id_of_nodup hnd hw]

theorem perm_of_nodup_mem_iff {l1 l2 : List Nat} (h1 : l1.Nodup) (h2 : l2.Nodup)
    (h : ∀ x, x ∈ l1 ↔ x ∈ l2) : List.Perm l1 l2 :=
  List.Subperm.antisymm (h1.subperm fun x hx => (h x).mp hx)
    (h2.subperm fun x hx => (h x).mpr hx)

theorem colTasks_writeList_perm {store : Store} {ws : List Task} {s : String}
    (hwf : wfStore store)
    (hnd : (ws.map (fun t => t.id)).Nodup)
    (hpres : ∀ w ∈ ws, ∃ t ∈ store, t.id = w.id)
    (hst : ∀ w ∈ ws, w.status = s)
    (hiff : ∀ t ∈ store, (t.status = s ↔ ∃ w ∈ ws, w.id = t.id)) :
    List.Perm (colTasks (writeList store ws) s) ws := by
  have hex : ∀ t ∈ store, t.status = s → ∃ x ∈ ws, (x.id == t.id) = true := by
    intro t ht hts
    obtain ⟨w, hw, hwid⟩ := (hiff t ht).mp hts
    exact ⟨w, hw, by simpa using hwid⟩
  have hP : ∀ t ∈ store, ((subst ws t).status == s) = (t.status == s) := by
    intro t ht
    by_cases hts : t.status = s
    · obtain ⟨w, hfind⟩ := find?_isSome_of_exists (hex t ht hts)
      have hwmem : w ∈ ws := List.mem_of_find?_eq_some hfind
      rw [subst, hfind]
      rw [show w.status = s from hst w hwmem, hts]
    · have hnone : ws.find? (fun x => x.id == t.id) = none := by
        rw [List.find?_eq_none]
        intro x hx hbeq
        exact hts ((hiff t ht).mpr ⟨x, hx, by simpa using hbeq⟩)
      rw [subst, hnone]
  have hmap := writeList_eq_map hwf hnd hpres
  have hfc : (writeList store ws).filter (fun t => t.status == s) =
      (store.filter (fun t => t.status == s)).map (subst ws) := by
    rw [hmap]
    exact filter_map_comm (subst ws) (fun t => t.status == s) store hP
  set col := store.filter (fun t => t.status == s) with hcol
  have hcolsub : ∀ t ∈ col, t ∈ store ∧ t.status = s := by
    intro t ht
    have := List.mem_filter.mp ht
    exact ⟨this.1, by simpa using this.2⟩
  have hcolnd : (col.map (fun t => t.id)).Nodup := by
    have hsub : List.Sublist (col.map (fun t => t.id)) (store.map (fun t => t.id)) :=
      (List.filter_sublist store).map (fun t => t.id)
    exact hwf.sublist hsub
  have hidmem : ∀ i, i ∈ col.map (fun t => t.id) ↔ i ∈ ws.map (fun t => t.id) := by
    intro i
    constructor
    · intro hi
      obtain ⟨t, ht, hti⟩ := List.mem_map.mp hi
      obtain ⟨htst, hts⟩ := hcolsub t ht
      obtain ⟨w, hw, hwid⟩ := (hiff t htst).mp hts
      exact List.mem_map.mpr ⟨w, hw, by rw [hwid, hti]⟩
    · intro hi
      obtain ⟨w, hw, hwi⟩ := List.mem_map.mp hi
      obtain ⟨t, ht, htid⟩ := hpres w hw
      have hts : t.status = s := (hiff t ht).mpr ⟨w, hw, htid.symm⟩
      refine List.mem_map.mpr ⟨t, List.mem_filter.mpr ⟨ht, by simpa using hts⟩, ?_⟩
      rw [htid, hwi]
  have hpermIds : List.Perm (col.map (fun t => t.id)) (ws.map (fun t => t.id)) :=
    perm_of_nodup_mem_iff hcolnd hnd hidmem
  have hcolmap : col.map (subst ws) = (col.map (fun t => t.id)).map (pick ws) := by
    rw [List.map_map]
    refine List.map_congr_left (fun t ht => ?_)
    obtain ⟨htst, hts⟩ := hcolsub t ht
    exact subst_eq_pick (hex t htst hts)
  have hwsmap : (ws.map (fun t => t.id)).map (pick ws) = ws := by
    rw [List.map_map]
    have h1 : ws.map (pick ws ∘ fun t => t.id) = ws.map id :=
      List.map_congr_left (fun w hw => pick_of_mem_nodup hnd hw)
    rw [h1, List.map_id]
  have hchain : List.Perm (colTasks (writeList store ws) s)
      ((writeList store ws).filter (fun t => t.status == s)) :=
    sortC_perm posCmp _
  rw [hfc, hcolmap] at hchain
  have hfinal : List.Perm ((col.map (fun t => t.id)).map (pick ws)) ws := by
    have hp := hpermIds.map (pick ws)
    rw [hwsmap] at hp
    exact hp
  exact hchain.trans hfinal

theorem denseCol_writeList {store : Store} {l : List Task} {s : String}
    (hwf : wfStore store)
    (hnd : (l.map (fun t => t.id)).Nodup)
    (hpres : ∀ w ∈ l, ∃ t ∈ store, t.id = w.id)
    (hst : ∀ w ∈ l, w.status = s)
    (hiff : ∀ t ∈ store, (t.status = s ↔ ∃ w ∈ l, w.id = t.id)) :
    denseCol (writeList store (reindexFrom 0 l)) s := by
  have hndw : ((reindexFrom 0 l).map (fun t => t.id)).Nodup := by
    rw [map_id_reindexFrom]
    exact hnd
  have hpresw : ∀ w ∈ reindexFrom 0 l, ∃ t ∈ store, t.id = w.id := by
    intro w hw
    obtain ⟨v, hv, hid, _⟩ := mem_reindexFrom hw
    obtain ⟨t, ht, htid⟩ := hpres v hv
    exact ⟨t, ht, by rw [htid, hid]⟩
  have hstw : ∀ w ∈ reindexFrom 0 l, w.status = s := by
    intro w hw
    obtain ⟨v, hv, _, hstat⟩ := mem_reindexFrom hw
    rw [hstat]
    exact hst v hv
  have hiffw : ∀ t ∈ store, (t.status = s ↔ ∃ w ∈ reindexFrom 0 l, w.id = t.id) := by
    intro t ht
    rw [hiff t ht]
    constructor
    · rintro ⟨w, hw, hid⟩
      have hmem : w.id ∈ (reindexFrom 0 l).map (fun t => t.id) := by
        rw [map_id_reindexFrom]
        exact List.mem_map_of_mem _ hw
      obtain ⟨w', hw', hid'⟩ := List.mem_map.mp hmem
      exact ⟨w', hw', by rw [hid', hid]⟩
    · rintro ⟨w, hw, hid⟩
      have hmem : w.id ∈ l.map (fun t => t.id) := by
        rw [← map_id_reindexFrom 0 l]
        exact List.mem_map_of_mem _ hw
      obtain ⟨v, hv, hid'⟩ := List.mem_map.mp hmem
      exact ⟨v, hv, by rw [hid', hid]⟩
  have hperm : List.Perm (colTasks (writeList store (reindexFrom 0 l)) s) (reindexFrom 0 l) :=
    colTasks_writeList_perm hwf hndw hpresw hstw hiffw
  have hpos : List.Perm (colPositions (writeList store (reindexFrom 0 l)) s)
      ((reindexFrom 0 l).map (fun t => t.position)) := by
    simp only [colPositions]
    exact hperm.map (fun t => t.position)
  rw [positions_reindexFrom l 0] at hpos
  have hzero : (List.range l.length).map (fun j => ((0 + j : Nat) : Int)) =
      (List.range l.length).map (fun (n : Nat) => (n : Int)) :=
    List.map_congr_left (fun j _ => by rw [Nat.zero_add])
  rw [hzero] at hpos
  have hlen : (colTasks (writeList store (reindexFrom 0 l)) s).length = l.length := by
    rw [hperm.length_eq, length_reindexFrom]
  have hsorted : (colPositions (writeList store (reindexFrom 0 l)) s).Pairwise
      ((· ≤ ·) : Int → Int → Prop) := by
    simp only [colPositions, colTasks]
    exact List.pairwise_map.mpr (sortC_posCmp_pairwise
      ((writeList store (reindexFrom 0 l)).filter (fun t => t.status == s)))
  have hrange : ((List.range l.length).map (fun (n : Nat) => (n : Int))).Pairwise
      ((· ≤ ·) : Int → Int → Prop) := by
    refine List.pairwise_map.mpr ((List.pairwise_lt_range _).imp ?_)
    intro a b h
    exact_mod_cast le_of_lt h
  rw [denseCol, hlen]
  exact List.eq_of_perm_of_sorted hpos hsorted hrange

/-! ### Density of renumbered columns -/

theorem mem_colTasks {store : Store} {s : String} {w : Task} :
    w ∈ colTasks store s ↔ w ∈ store ∧ w.status = s := by
  rw [colTasks, (sortC_perm posCmp (store.filter (fun t => t.status == s))).mem_iff,
    List.mem_filter]
  constructor
  · rintro ⟨h1, h2⟩
    exact ⟨h1, by simpa using h2⟩
  · rintro ⟨h1, h2⟩
    exact ⟨h1, by simpa using h2⟩

theorem colTasks_ids_nodup {store : Store} (hwf : wfStore store) (s : String) :
    ((colTasks store s).map (fun t => t.id)).Nodup := by
  have hperm : List.Perm ((colTasks store s).map (fun t => t.id))
      ((store.filter (fun t => t.status == s)).map (fun t => t.id)) :=
    (sortC_perm posCmp _).map _
  rw [hperm.nodup_iff]
  exact hwf.sublist ((List.filter_sublist store).map _)

/-- Renumbering any comparator-sorted arrangement of a column, with the
skip-unchanged-positions loop, leaves that column dense `0..N-1`. -/
theorem dense_renumber_sorted_col {store1 : Store} (hwf1 : wfStore store1)
    (c : Task → Task → Int) (s : String) :
    denseCol (renumber store1 (sortC c (colTasks store1 s)) 0) s := by
  set fo := sortC c (colTasks store1 s) with hfo
  have hfoperm : List.Perm fo (colTasks store1 s) := sortC_perm c _
  have hfomem : ∀ w ∈ fo, w ∈ store1 ∧ w.status = s := by
    intro w hw
    exact mem_colTasks.mp (hfoperm.mem_iff.mp hw)
  have hnd : (fo.map (fun t => t.id)).Nodup := by
    rw [(hfoperm.map (fun t => t.id)).nodup_iff]
    exact colTasks_ids_nodup hwf1 s
  have hcur : ∀ w ∈ fo, getTask store1 w.id = some w := fun w hw =>
    getTask_of_mem hwf1 (hfomem w hw).1
  rw [renumber_eq_writeList fo store1 0 hnd hcur]
  refine denseCol_writeList hwf1 hnd (fun w hw => ⟨w, (hfomem w hw).1, rfl⟩)
    (fun w hw => (hfomem w hw).2) ?_
  intro t ht
  constructor
  · intro hts
    exact ⟨t, hfoperm.mem_iff.mpr (mem_colTasks.mpr ⟨ht, hts⟩), rfl⟩
  · rintro ⟨w, hw, hwid⟩
    obtain ⟨hw1, hws⟩ := hfomem w hw
    rw [mem_unique_of_wf hwf1 ht hw1 hwid.symm]
    exact hws

theorem findIndexOf_isSome_of_exists {p : Task → Bool} :
    ∀ {l : List Task}, (∃ x ∈ l, p x = true) → ∃ k, findIndexOf p l = some k
  | [], h => by simp at h
  | t :: rest, h => by
    rw [findIndexOf]
    by_cases hp : p t = true
    · rw [if_pos hp]
      exact ⟨0, rfl⟩
    · rw [if_neg hp]
      obtain ⟨x, hx, hpx⟩ := h
      rcases List.mem_cons.mp hx with rfl | hx'
      · exact absurd hpx hp
      · obtain ⟨k, hk⟩ := findIndexOf_isSome_of_exists ⟨x, hx', hpx⟩
        exact ⟨k + 1, by rw [hk]; rfl⟩

/-- A successful same-column reorder reduces to a reindexing write list over
the spliced ordering. -/
theorem reorderTaskInColumn_success_eq {store : Store} {taskId targetTaskId : Nat}
    {task targetTask : Task} {k : Nat} (pa : Bool)
    (ht : getTask store taskId = some task)
    (htt : getTask store targetTaskId = some targetTask)
    (hs : task.status = targetTask.status)
    (hk : findIndexOf (fun t => t.id == targetTask.id)
        ((colTasks store task.status).filter (fun t => t.id != task.id)) = some k) :
    reorderTaskInColumn store taskId targetTaskId pa =
      (reindexFrom 0
        (((colTasks store task.status).filter (fun t => t.id != task.id)).take
            (if pa then k + 1 else k) ++
          task ::
            ((colTasks store task.status).filter (fun t => t.id != task.id)).drop
              (if pa then k + 1 else k)),
       writeList store
        (reindexFrom 0
          (((colTasks store task.status).filter (fun t => t.id != task.id)).take
              (if pa then k + 1 else k) ++
            task ::
              ((colTasks store task.status).filter (fun t => t.id != task.id)).drop
                (if pa then k + 1 else k)))) := by
  have hsne : (task.status != targetTask.status) = false := by
    simp [hs]
  rw [reorderTaskInColumn]
  rw [ht, htt]
  simp only [hsne, Bool.false_eq_true, if_false, hk]
  exact renumAll_eq _ _ _

theorem reorder_target_mem_rem {store : Store} {taskId targetTaskId : Nat}
    {task targetTask : Task}
    (ht : getTask store taskId = some task)
    (htt : getTask store targetTaskId = some targetTask)
    (hs : task.status = targetTask.status)
    (hne : taskId ≠ targetTaskId) :
    targetTask ∈ (colTasks store task.status).filter (fun t => t.id != task.id) := by
  obtain ⟨htm, htid⟩ := getTask_eq_some ht
  obtain ⟨httm, httid⟩ := getTask_eq_some htt
  refine List.mem_filter.mpr ⟨mem_colTasks.mpr ⟨httm, hs.symm⟩, ?_⟩
  simp only [bne_iff_ne, ne_eq]
  rw [httid, htid]
  exact fun h => hne (h ▸ rfl)

/-- A successful same-column reorder leaves the column dense `0..N-1`. -/
theorem reorderTaskInColumn_dense {store : Store} {taskId targetTaskId : Nat} (pa : Bool)
    {task targetTask : Task}
    (hwf : wfStore store)
    (ht : getTask store taskId = some task)
    (htt : getTask store targetTaskId = some targetTask)
    (hs : task.status = targetTask.status)
    (hne : taskId ≠ targetTaskId) :
    denseCol (reorderTaskInColumn store taskId targetTaskId pa).2 task.status := by
  have htmem : targetTask ∈ (colTasks store task.status).filter (fun t => t.id != task.id) :=
    reorder_target_mem_rem ht htt hs hne
  have hex : ∃ x ∈ (colTasks store task.status).filter (fun t => t.id != task.id),
      (x.id == targetTask.id) = true :=
    ⟨targetTask, htmem, beq_self_eq_true targetTask.id⟩
  obtain ⟨k, hk⟩ := findIndexOf_isSome_of_exists hex
  rw [reorderTaskInColumn_success_eq pa ht htt hs hk]
  set rem := (colTasks store task.status).filter (fun t => t.id != task.id) with hrem
  set k2 := if pa then k + 1 else k with hk2
  set uts2 := rem.take k2 ++ task :: rem.drop k2 with huts2
  have hperm : List.Perm uts2 (task :: rem) := by
    refine List.perm_middle.trans ?_
    rw [List.take_append_drop]
  have htaskmem : task ∈ store := (getTask_eq_some ht).1
  have hremmem : ∀ w ∈ rem, w ∈ store ∧ w.status = task.status ∧ w.id ≠ task.id := by
    intro w hw
    obtain ⟨hcol, hne'⟩ := List.mem_filter.mp hw
    obtain ⟨hmem, hst⟩ := mem_colTasks.mp hcol
    exact ⟨hmem, hst, by simpa using hne'⟩
  have hmemiff : ∀ w, w ∈ uts2 ↔ w = task ∨ w ∈ rem := by
    intro w
    rw [hperm.mem_iff, List.mem_cons]
  have hnd : (uts2.map (fun t => t.id)).Nodup := by
    rw [(hperm.map (fun t => t.id)).nodup_iff, List.map_cons, List.nodup_cons]
    constructor
    · intro hmem
      obtain ⟨w, hw, hwid⟩ := List.mem_map.mp hmem
      exact (hremmem w hw).2.2 hwid
    · have hsub : List.Sublist (rem.map (fun t => t.id))
          ((colTasks store task.status).map (fun t => t.id)) :=
        (List.filter_sublist _).map _
      exact (colTasks_ids_nodup hwf task.status).sublist hsub
  have hpres : ∀ w ∈ uts2, ∃ u ∈ store, u.id = w.id := by
    intro w hw
    rcases (hmemiff w).mp hw with rfl | hw'
    · exact ⟨w, htaskmem, rfl⟩
    · exact ⟨w, (hremmem w hw').1, rfl⟩
  have hstat : ∀ w ∈ uts2, w.status = task.status := by
    intro w hw
    rcases (hmemiff w).mp hw with rfl | hw'
    · rfl
    · exact (hremmem w hw').2.1
  refine denseCol_writeList hwf hnd hpres hstat ?_
  intro t htm
  constructor
  · intro hts
    by_cases hid : t.id = task.id
    · exact ⟨task, (hmemiff task).mpr (Or.inl rfl), hid.symm⟩
    · have hin : t ∈ rem :=
        List.mem_filter.mpr ⟨mem_colTasks.mpr ⟨htm, hts⟩, by simpa using hid⟩
      exact ⟨t, (hmemiff t).mpr (Or.inr hin), rfl⟩
  · rintro ⟨w, hw, hwid⟩
    rcases (hmemiff w).mp hw with rfl | hw'
    · rw [mem_unique_of_wf hwf htm htaskmem hwid.symm]
    · obtain ⟨hwmem, hws, _⟩ := hremmem w hw'
      rw [mem_unique_of_wf hwf htm hwmem hwid.symm]
      exact hws

/-- When a target position or target task is supplied (so top placement is
not forced), `updateTaskStatus` ends by renumbering the sorted target
column. -/
theorem updateTaskStatus_not_top {store : Store} {id : Nat} {status : String}
    {targetPosition : Option Int} {targetTaskId : Option Nat} (pb : Bool) {task : Task}
    (htask : getTask store id = some task)
    (hnotop : targetPosition.isSome = true ∨ truthy targetTaskId = true) :
    ∃ P : Int,
      updateTaskStatus store id status targetPosition targetTaskId pb =
        (some { task with status := status, position := P },
         renumber (setTask store { task with status := status, position := P })
           (sortC (moveCmp id)
             (colTasks (setTask store { task with status := status, position := P }) status))
           0) := by
  by_cases htr : truthy targetTaskId = true
  · have hisnone : targetTaskId.isNone = false := by
      cases targetTaskId with
      | none => simp [truthy] at htr
      | some n => rfl
    cases hget : getTask store (targetTaskId.getD 0) with
    | some tt =>
      refine ⟨tt.position, ?_⟩
      simp only [updateTaskStatus, htask, htr, if_true, hget, hisnone, Bool.and_false,
        Bool.false_eq_true, if_false]
    | none =>
      refine ⟨0, ?_⟩
      simp only [updateTaskStatus, htask, htr, if_true, hget, hisnone, Bool.and_false,
        Bool.false_eq_true, if_false]
  · have htrf : truthy targetTaskId = false := Bool.eq_false_iff.mpr htr
    have hpos : ∃ p, targetPosition = some p := by
      rcases hnotop with h | h
      · cases targetPosition with
        | none => simp at h
        | some p => exact ⟨p, rfl⟩
      · exact absurd h htr
    obtain ⟨p, rfl⟩ := hpos
    refine ⟨p, ?_⟩
    simp only [updateTaskStatus, htask, htrf, Bool.false_eq_true, if_false,
      Option.isNone_some, Bool.false_and]

/-- A successful move with an explicit target position or target task leaves
the target column dense `0..N-1`. -/
theorem updateTaskStatus_dense {store : Store} {id : Nat} {status : String}
    {targetPosition : Option Int} {targetTaskId : Option Nat} (pb : Bool) {task : Task}
    (hwf : wfStore store) (htask : getTask store id = some task)
    (hnotop : targetPosition.isSome = true ∨ truthy targetTaskId = true) :
    denseCol (updateTaskStatus store id status targetPosition targetTaskId pb).2 status := by
  obtain ⟨P, heq⟩ := updateTaskStatus_not_top pb htask hnotop
  rw [heq]
  exact dense_renumber_sorted_col (wfStore_setTask _ hwf) (moveCmp id) status

/-- `updateTaskStatus` on an existing task always reduces to one of the two
renumbering loops over the target column of the intermediate store. -/
theorem updateTaskStatus_cases {store : Store} {id : Nat} {status : String}
    (targetPosition : Option Int) (targetTaskId : Option Nat) (pb : Bool) {task : Task}
    (htask : getTask store id = some task) :
    ∃ P : Int,
      updateTaskStatus store id status targetPosition targetTaskId pb =
        (some { task with status := status, position := P },
         shiftDown id (setTask store { task with status := status, position := P })
           (colTasks (setTask store { task with status := status, position := P }) status)) ∨
      updateTaskStatus store id status targetPosition targetTaskId pb =
        (some { task with status := status, position := P },
         renumber (setTask store { task with status := status, position := P })
           (sortC (moveCmp id)
             (colTasks (setTask store { task with status := status, position := P }) status))
           0) := by
  by_cases htr : truthy targetTaskId = true
  · obtain ⟨P, h⟩ := updateTaskStatus_not_top pb htask (Or.inr htr)
    exact ⟨P, Or.inr h⟩
  · have htrf : truthy targetTaskId = false := Bool.eq_false_iff.mpr htr
    cases hp : targetPosition with
    | some p =>
      subst hp
      obtain ⟨P, h⟩ := @updateTaskStatus_not_top store id status (some p) targetTaskId pb
        task htask (Or.inl rfl)
      exact ⟨P, Or.inr h⟩
    | none =>
      cases htid : targetTaskId with
      | none =>
        refine ⟨0, Or.inl ?_⟩
        simp only [hp, htid] at htrf ⊢
        simp only [updateTaskStatus, htask, truthy, Bool.false_eq_true, if_false,
          Option.isNone_none, Bool.and_self, if_true]
      | some n =>
        refine ⟨0, Or.inr ?_⟩
        simp only [hp, htid] at htrf ⊢
        simp only [updateTaskStatus, htask, htrf, Bool.false_eq_true, if_false,
          Option.isNone_none, Option.isNone_some, Bool.true_and]

/-- The missing-target branch of `updateTaskStatus`: when a truthy target
task id does not resolve, the task is still moved, at insert position 0, and
the target column is renumbered. -/
theorem updateTaskStatus_target_missing {store : Store} {id : Nat} {status : String}
    {targetTaskId : Option Nat} (pb : Bool) {task : Task}
    (htask : getTask store id = some task)
    (htr : truthy targetTaskId = true)
    (hget : getTask store (targetTaskId.getD 0) = none) :
    updateTaskStatus store id status none targetTaskId pb =
      (some { task with status := status, position := 0 },
       renumber (setTask store { task with status := status, position := 0 })
         (sortC (moveCmp id)
           (colTasks (setTask store { task with status := status, position := 0 }) status))
         0) := by
  have hisnone : targetTaskId.isNone = false := by
    cases targetTaskId with
    | none => simp [truthy] at htr
    | some n => rfl
  simp only [updateTaskStatus, htask, htr, if_true, hget, hisnone, Bool.and_false,
    Bool.false_eq_true, if_false]

/-- Frame property: `updateTaskStatus` leaves every task outside the target
column, other than the moved task, exactly as it was. -/
theorem updateTaskStatus_frame {store : Store} {id : Nat} {status : String}
    (targetPosition : Option Int) (targetTaskId : Option Nat) (pb : Bool) {task : Task}
    (hwf : wfStore store)
    (htask : getTask store id = some task)
    {t : Task} (htm : t ∈ store) (htid : t.id ≠ id) (hts : t.status ≠ status) :
    getTask (updateTaskStatus store id status targetPosition targetTaskId pb).2 t.id =
      some t := by
  obtain ⟨P, hcase⟩ := updateTaskStatus_cases targetPosition targetTaskId pb htask
  have hidtask : task.id = id := (getTask_eq_some htask).2
  have htid2 : t.id ≠ ({ task with status := status, position := P } : Task).id := by
    show t.id ≠ task.id
    rw [hidtask]
    exact htid
  have hwf1 : wfStore (setTask store { task with status := status, position := P }) :=
    wfStore_setTask _ hwf
  have htm1 : t ∈ setTask store { task with status := status, position := P } :=
    mem_setTask_of_ne htm htid2
  have hget1 : getTask (setTask store { task with status := status, position := P }) t.id =
      some t := getTask_of_mem hwf1 htm1
  have hcolid : ∀ w ∈ colTasks (setTask store { task with status := status, position := P })
      status, w.id ≠ t.id := by
    intro w hw hwid
    obtain ⟨hwmem, hws⟩ := mem_colTasks.mp hw
    rw [mem_unique_of_wf hwf1 hwmem htm1 hwid] at hws
    exact hts hws
  rcases hcase with h | h
  · rw [h]
    show getTask (shiftDown id (setTask store { task with status := status, position := P })
      (colTasks (setTask store { task with status := status, position := P }) status)) t.id =
      some t
    rw [getTask_shiftDown_ne _ _ hcolid]
    exact hget1
  · rw [h]
    show getTask (renumber (setTask store { task with status := status, position := P })
      (sortC (moveCmp id)
        (colTasks (setTask store { task with status := status, position := P }) status)) 0)
      t.id = some t
    have hcolid2 : ∀ w ∈ sortC (moveCmp id)
        (colTasks (setTask store { task with status := status, position := P }) status),
        w.id ≠ t.id := fun w hw => hcolid w ((sortC_perm _ _).mem_iff.mp hw)
    rw [getTask_renumber_ne _ _ 0 hcolid2]
    exact hget1

theorem reindexFrom_mem_of_mem : ∀ {i : Nat} {ws : List Task} {v : Task}, v ∈ ws →
    ∃ w ∈ reindexFrom i ws, w.id = v.id ∧ w.status = v.status
  | i, t :: rest, v, h => by
    rcases List.mem_cons.mp h with rfl | h'
    · exact ⟨{ v with position := (i : Int) }, List.mem_cons_self _ _, rfl, rfl⟩
    · obtain ⟨w, hw, hid, hst⟩ := reindexFrom_mem_of_mem h'
      exact ⟨w, List.mem_cons_of_mem _ hw, hid, hst⟩

/-- After the sorted-column renumbering, every task of the column is still
present in the store (with the column's status) under its id. -/
theorem getTask_renumber_sorted_col {store1 : Store} (hwf1 : wfStore store1)
    (c : Task → Task → Int) (s : String) {v : Task} (hv : v ∈ store1) (hvs : v.status = s) :
    ∃ u, getTask (renumber store1 (sortC c (colTasks store1 s)) 0) v.id = some u ∧
      u.status = s ∧ u.id = v.id := by
  set fo := sortC c (colTasks store1 s) with hfo
  have hfoperm : List.Perm fo (colTasks store1 s) := sortC_perm c _
  have hfomem : ∀ w ∈ fo, w ∈ store1 ∧ w.status = s := fun w hw =>
    mem_colTasks.mp (hfoperm.mem_iff.mp hw)
  have hnd : (fo.map (fun t => t.id)).Nodup := by
    rw [(hfoperm.map (fun t => t.id)).nodup_iff]
    exact colTasks_ids_nodup hwf1 s
  have hcur : ∀ w ∈ fo, getTask store1 w.id = some w := fun w hw =>
    getTask_of_mem hwf1 (hfomem w hw).1
  rw [renumber_eq_writeList fo store1 0 hnd hcur]
  have hndr : ((reindexFrom 0 fo).map (fun t => t.id)).Nodup := by
    rw [map_id_reindexFrom]
    exact hnd
  have hpresr : ∀ w ∈ reindexFrom 0 fo, ∃ u ∈ store1, u.id = w.id := by
    intro w hw
    obtain ⟨v', hv', hid, _⟩ := mem_reindexFrom hw
    exact ⟨v', (hfomem v' hv').1, by rw [hid]⟩
  have hvfo : v ∈ fo := hfoperm.mem_iff.mpr (mem_colTasks.mpr ⟨hv, hvs⟩)
  obtain ⟨w, hw, hwid, hwst⟩ := reindexFrom_mem_of_mem hvfo
  have hgot := getTask_writeList hwf1 hndr hpresr hw
  rw [hwid] at hgot
  exact ⟨w, hgot, by rw [hwst]; exact hvs, hwid⟩

theorem findIndexOf_lt_length {p : Task → Bool} : ∀ {l : List Task} {k : Nat},
    findIndexOf p l = some k → k < l.length
  | [], k, h => by simp [findIndexOf] at h
  | t :: rest, k, h => by
    rw [findIndexOf] at h
    by_cases hp : p t = true
    · rw [if_pos hp] at h
      have : k = 0 := by
        have := Option.some_inj.mp h
        exact this.symm
      rw [this]
      simp
    · rw [if_neg hp] at h
      cases hmap : findIndexOf p rest with
      | none =>
        rw [hmap] at h
        simp at h
      | some kk =>
        rw [hmap] at h
        have hk : kk + 1 = k := by simpa using h
        rw [← hk, List.length_cons]
        exact Nat.succ_lt_succ (findIndexOf_lt_length hmap)

/-- The list a successful same-column reorder returns: the remaining column
with the moved task spliced in at the target's ordinal index (`+ 1` when
placing after), renumbered `0..N-1`. -/
theorem reorderTaskInColumn_returned {store : Store} {taskId targetTaskId : Nat}
    {task targetTask : Task} {k : Nat} (pa : Bool)
    (ht : getTask store taskId = some task)
    (htt : getTask store targetTaskId = some targetTask)
    (hs : task.status = targetTask.status)
    (hk : findIndexOf (fun t => t.id == targetTask.id)
        ((colTasks store task.status).filter (fun t => t.id != task.id)) = some k) :
    (reorderTaskInColumn store taskId targetTaskId pa).1.map (fun t => t.id) =
      ((((colTasks store task.status).filter (fun t => t.id != task.id)).map
          (fun t => t.id)).take (if pa then k + 1 else k)) ++
        taskId :: ((((colTasks store task.status).filter (fun t => t.id != task.id)).map
          (fun t => t.id)).drop (if pa then k + 1 else k)) ∧
    (reorderTaskInColumn store taskId targetTaskId pa).1.map (fun t => t.position) =
      (List.range (((colTasks store task.status).filter
          (fun t => t.id != task.id)).length + 1)).map (fun (n : Nat) => (n : Int)) := by
  rw [reorderTaskInColumn_success_eq pa ht htt hs hk]
  set rem := (colTasks store task.status).filter (fun t => t.id != task.id) with hrem
  set k2 := if pa then k + 1 else k with hk2
  have hkb : k < rem.length := findIndexOf_lt_length hk
  have hk2b : k2 ≤ rem.length := by
    rw [hk2]
    cases pa
    · simpa using Nat.le_of_lt hkb
    · simpa using hkb
  constructor
  · show (reindexFrom 0 (rem.take k2 ++ task :: rem.drop k2)).map (fun t => t.id) =
      (rem.map (fun t => t.id)).take k2 ++
        taskId :: (rem.map (fun t => t.id)).drop k2
    rw [map_id_reindexFrom, List.map_append, List.map_cons, List.map_take, List.map_drop,
      (getTask_eq_some ht).2]
  · show (reindexFrom 0 (rem.take k2 ++ task :: rem.drop k2)).map (fun t => t.position) =
      (List.range (rem.length + 1)).map (fun (n : Nat) => (n : Int))
    rw [positions_reindexFrom]
    have hlen : (rem.take k2 ++ task :: rem.drop k2).length = rem.length + 1 := by
      rw [List.length_append, List.length_cons, List.length_take, List.length_drop]
      omega
    rw [hlen]
    exact List.map_congr_left (fun j _ => by rw [Nat.zero_add])

/-! ## Claim theorems -/

instance (store : Store) (status : String) : Decidable (denseCol store status) :=
  inferInstanceAs (Decidable (colPositions store status =
    (List.range (colTasks store status).length).map (fun (n : Nat) => (n : Int))))

instance (store : Store) : Decidable (wfStore store) := by
  unfold wfStore
  infer_instance

/-- C2 (code bug): `ReorderTaskCommand.undo` issues no store writes — its
body only invalidates the query cache — so after executing a reorder that
turns column "todo" from `[task 1, task 2]` into `[task 2, task 1]`,
undoing leaves the column in the post-reorder order, not the captured
`previousOrder` snapshot the command holds and the spec requires it to
re-apply verbatim. -/
theorem C2_undo_does_not_restore :
    (mkReorderCmd ("todo") [⟨1, "A", "todo", 0⟩, ⟨2, "B", "todo", 1⟩]).previousOrder =
      [⟨1, "A", "todo", 0⟩, ⟨2, "B", "todo", 1⟩] ∧
    colTasks (reorderUndoStore
        (reorderTaskInColumn [⟨1, "A", "todo", 0⟩, ⟨2, "B", "todo", 1⟩] 1 2 true).2)
        ("todo") =
      [⟨2, "B", "todo", 0⟩, ⟨1, "A", "todo", 1⟩] ∧
    colTasks (reorderUndoStore
        (reorderTaskInColumn [⟨1, "A", "todo", 0⟩, ⟨2, "B", "todo", 1⟩] 1 2 true).2)
        ("todo") ≠
      (mkReorderCmd ("todo") [⟨1, "A", "todo", 0⟩, ⟨2, "B", "todo", 1⟩]).previousOrder := by
  decide

/-- C3: `executeCommand` on a command whose `execute()` succeeds appends the
command to `past` and clears `future` entirely, so afterwards `future` is
empty and `canRedo` is false, whatever the stacks held before. -/
theorem C3_execute_clears_future {α : Type} (execOk : α → Bool) (h : CmdHistory α) (c : α)
    (hok : execOk c = true) :
    (executeCommand execOk h c).1.past = h.past ++ [c] ∧
    (executeCommand execOk h c).1.future = [] ∧
    canRedo (executeCommand execOk h c).1 = false := by
  rw [executeCommand, if_pos hok]
  exact ⟨rfl, rfl, rfl⟩

theorem C3_execute_clears_future_witness :
    (executeCommand (fun b => b) (⟨[], [false]⟩ : CmdHistory Bool) true).1.past = [true] ∧
    (executeCommand (fun b => b) (⟨[], [false]⟩ : CmdHistory Bool) true).1.future = [] ∧
    canRedo (executeCommand (fun b => b) (⟨[], [false]⟩ : CmdHistory Bool) true).1 = false :=
  C3_execute_clears_future (fun b => b) ⟨[], [false]⟩ true rfl

/-- C4 counterexample: with one command on `past` whose `undo()` fails, the
provider's `undo` leaves `past` unchanged — the failed command is still on
the stack, not popped into limbo — and no error reaches the caller (the
catch block swallows it behind a toast). -/
theorem C4_counterexample :
    undoCommand (fun b => b) (⟨[false], []⟩ : CmdHistory Bool) =
      ⟨⟨[false], []⟩, false, false⟩ := by
  decide

/-- C4 (amended): when the command at the top of `past` fails to undo, both
stacks are left exactly as they were — the command remains on top of `past`
— and the error is caught inside `undo`: the promise resolves, nothing is
surfaced to the caller beyond a failure toast. -/
theorem C4_failed_undo_keeps_stacks {α : Type} (undoOk : α → Bool) (h : CmdHistory α)
    (c : α) (hlast : h.past.getLast? = some c) (hfail : undoOk c = false) :
    undoCommand undoOk h = ⟨h, false, false⟩ := by
  have hne : h.past.isEmpty = false := by
    cases hp : h.past with
    | nil =>
      rw [hp] at hlast
      simp at hlast
    | cons a l => rfl
  simp only [undoCommand, hne, Bool.false_eq_true, if_false, hlast, hfail]

theorem C4_failed_undo_keeps_stacks_witness :
    undoCommand (fun b => b) (⟨[true, false], [true]⟩ : CmdHistory Bool) =
      ⟨⟨[true, false], [true]⟩, false, false⟩ :=
  C4_failed_undo_keeps_stacks (fun b => b) ⟨[true, false], [true]⟩ false (by decide) rfl

/-- C5 counterexample: when `execute()` fails, the stacks are indeed left
unchanged, but the error is NOT surfaced to the caller: `executeCommand`'s
promise resolves (`rejected = false`), the catch block having swallowed the
error. -/
theorem C5_counterexample :
    executeCommand (fun b => b) (⟨[true], [true]⟩ : CmdHistory Bool) false =
      (⟨[true], [true]⟩, false) := by
  decide

/-- C5 (amended): when `execute()` fails, `past` and `future` are left
unchanged and the error is caught — not rethrown — so the caller's promise
resolves; the only signal is a toast (suppressed for move commands). -/
theorem C5_failed_execute_swallowed {α : Type} (execOk : α → Bool) (h : CmdHistory α)
    (c : α) (hfail : execOk c = false) :
    executeCommand execOk h c = (h, false) := by
  rw [executeCommand, if_neg (by simp [hfail])]

theorem C5_failed_execute_swallowed_witness :
    executeCommand (fun b => b) (⟨[], []⟩ : CmdHistory Bool) false =
      ((⟨[], []⟩ : CmdHistory Bool), false) :=
  C5_failed_execute_swallowed (fun b => b) ⟨[], []⟩ false rfl

/-- C10: `MoveTaskCommand.undo` catches every error of the underlying
status-restore request, so a move command that executed successfully (hence
carries a valid, positive task id) always undoes "successfully": the
command log transfers it from `past` to `future` and reports success,
whatever the restore request's outcome `e2` — even when the status was not
actually restored. -/
theorem C10_move_undo_always_transfers (past future : List Int) (tid : Int)
    (e1 e2 : Bool) (hexec : moveExecuteOk tid e1 = true) :
    undoCommand (fun t => moveUndoOk t e2) ⟨past ++ [tid], future⟩ =
      ⟨⟨past, future ++ [tid]⟩, true, false⟩ := by
  have hpos : (0 : Int) < tid := by
    rw [moveExecuteOk, Bool.and_eq_true] at hexec
    exact of_decide_eq_true hexec.1
  have hundo : moveUndoOk tid e2 = true := by
    rw [moveUndoOk]
    exact decide_eq_true hpos
  have hempty : (past ++ [tid]).isEmpty = false := by
    cases past <;> rfl
  simp only [undoCommand, hempty, Bool.false_eq_true, if_false, List.getLast?_concat,
    hundo, if_true, List.dropLast_concat]

theorem C10_move_undo_always_transfers_witness :
    undoCommand (fun t => moveUndoOk t false) (⟨[5], []⟩ : CmdHistory Int) =
      ⟨⟨[], [5]⟩, true, false⟩ :=
  C10_move_undo_always_transfers [] [] 5 true false (by decide)

/-- C1 counterexample: starting from the dense four-task store, two
successful top-placement moves (no target position, no target task id)
leave column "a" holding positions `[0, 1, 3]` — the shift-down loop only
adds one to existing positions and so preserves the gap the first move-out
left, refuting density for the top-placement move path. -/
theorem C1_counterexample :
    (updateTaskStatus [⟨1, "A", "a", 0⟩, ⟨2, "B", "a", 1⟩, ⟨3, "C", "a", 2⟩, ⟨4, "D", "b", 0⟩]
        2 ("b") none none false).1 = some ⟨2, "B", "b", 0⟩ ∧
    (updateTaskStatus (updateTaskStatus [⟨1, "A", "a", 0⟩, ⟨2, "B", "a", 1⟩,
        ⟨3, "C", "a", 2⟩, ⟨4, "D", "b", 0⟩] 2 ("b") none none false).2
        4 ("a") none none false).1 = some ⟨4, "D", "a", 0⟩ ∧
    ¬denseCol (updateTaskStatus (updateTaskStatus [⟨1, "A", "a", 0⟩, ⟨2, "B", "a", 1⟩,
        ⟨3, "C", "a", 2⟩, ⟨4, "D", "b", 0⟩] 2 ("b") none none false).2
        4 ("a") none none false).2 ("a") := by
  decide

/-- C1 (amended): after any successful same-column reorder the affected
column's positions read `0..N-1` in display order, and likewise for the
target column after any successful move that supplies a target position or
a truthy target task id.  (A move with neither — forced top placement —
shifts the surviving positions up by one and need not close pre-existing
gaps; see the counterexample.) -/
theorem C1_dense_after_reorder_and_targeted_move :
    (∀ (store : Store) (taskId targetTaskId : Nat) (pa : Bool) (task targetTask : Task),
       wfStore store →
       getTask store taskId = some task →
       getTask store targetTaskId = some targetTask →
       task.status = targetTask.status →
       taskId ≠ targetTaskId →
       denseCol (reorderTaskInColumn store taskId targetTaskId pa).2 task.status) ∧
    (∀ (store : Store) (id : Nat) (status : String) (targetPosition : Option Int)
       (targetTaskId : Option Nat) (pb : Bool) (task : Task),
       wfStore store →
       getTask store id = some task →
       (targetPosition.isSome = true ∨ truthy targetTaskId = true) →
       denseCol (updateTaskStatus store id status targetPosition targetTaskId pb).2 status) :=
  ⟨fun _ _ _ pa _ _ hwf ht htt hs hne => reorderTaskInColumn_dense pa hwf ht htt hs hne,
   fun _ _ _ _ _ pb _ hwf htask hnotop => updateTaskStatus_dense pb hwf htask hnotop⟩

theorem C1_dense_after_reorder_and_targeted_move_witness :
    denseCol (reorderTaskInColumn [⟨1, "A", "todo", 0⟩, ⟨2, "B", "todo", 1⟩,
        ⟨3, "C", "todo", 2⟩] 3 1 false).2 ("todo") ∧
    denseCol (updateTaskStatus [⟨1, "A", "todo", 0⟩, ⟨2, "B", "done", 5⟩] 1 ("done")
        (some 7) none false).2 ("done") :=
  ⟨C1_dense_after_reorder_and_targeted_move.1 [⟨1, "A", "todo", 0⟩, ⟨2, "B", "todo", 1⟩,
      ⟨3, "C", "todo", 2⟩] 3 1 false ⟨3, "C", "todo", 2⟩ ⟨1, "A", "todo", 0⟩
      (by decide) (by decide) (by decide) rfl (by decide),
   C1_dense_after_reorder_and_targeted_move.2 [⟨1, "A", "todo", 0⟩, ⟨2, "B", "done", 5⟩]
      1 ("done") (some 7) none false ⟨1, "A", "todo", 0⟩
      (by decide) (by decide) (Or.inl rfl)⟩

/-- C6: a cross-column move renumbers only the target column — every task
other than the moved one whose status is not the target status keeps its
exact record — and the scenario: moving A from "todo" (A at 0, B at 1) to
the empty "done" column with `toTop = true` puts A at position 0 in "done"
and leaves B at its prior position 1 in "todo". -/
theorem C6_move_frame :
    (∀ (store : Store) (id : Nat) (status : String) (targetPosition : Option Int)
       (targetTaskId : Option Nat) (pb : Bool) (task t : Task),
       wfStore store →
       getTask store id = some task →
       task.status ≠ status →
       t ∈ store → t.id ≠ id → t.status ≠ status →
       getTask (updateTaskStatus store id status targetPosition targetTaskId pb).2 t.id =
         some t) ∧
    statusRoute [⟨1, "A", "todo", 0⟩, ⟨2, "B", "todo", 1⟩] 1
        ⟨"done", none, none, some true, none, none, none⟩ =
      ((200, some ⟨1, "A", "done", 0⟩), [⟨1, "A", "done", 0⟩, ⟨2, "B", "todo", 1⟩]) := by
  constructor
  · intro store id status tp tid pb task t hwf htask _ htm htid hts
    exact updateTaskStatus_frame tp tid pb hwf htask htm htid hts
  · decide

theorem C6_move_frame_witness :
    getTask (updateTaskStatus [⟨1, "A", "todo", 0⟩, ⟨2, "B", "todo", 1⟩, ⟨3, "C", "done", 0⟩]
        1 ("done") none none false).2 2 = some ⟨2, "B", "todo", 1⟩ :=
  C6_move_frame.1 [⟨1, "A", "todo", 0⟩, ⟨2, "B", "todo", 1⟩, ⟨3, "C", "done", 0⟩]
    1 ("done") none none false ⟨1, "A", "todo", 0⟩ ⟨2, "B", "todo", 1⟩
    (by decide) (by decide) (by decide) (by decide) (by decide) (by decide)

/-- C7: in a successful same-column reorder the returned ordering is the
remaining column (moved task removed, relative order of the others kept)
with the moved task inserted at the target's ordinal index when placing
before (`placeAfter = false`), or at that index plus one when placing
after, and positions renumbered `0..N-1`; scenario: with "todo" =
[A(0), B(1), C(2)], reordering C before A via the route yields [C, A, B]
with positions [0, 1, 2]. -/
theorem C7_reorder_placement :
    (∀ (store : Store) (taskId targetTaskId : Nat) (pa : Bool)
       (task targetTask : Task) (k : Nat),
       getTask store taskId = some task →
       getTask store targetTaskId = some targetTask →
       task.status = targetTask.status →
       findIndexOf (fun t => t.id == targetTask.id)
           ((colTasks store task.status).filter (fun t => t.id != task.id)) = some k →
       (reorderTaskInColumn store taskId targetTaskId pa).1.map (fun t => t.id) =
         ((((colTasks store task.status).filter (fun t => t.id != task.id)).map
             (fun t => t.id)).take (if pa then k + 1 else k)) ++
           taskId :: ((((colTasks store task.status).filter (fun t => t.id != task.id)).map
             (fun t => t.id)).drop (if pa then k + 1 else k)) ∧
       (reorderTaskInColumn store taskId targetTaskId pa).1.map (fun t => t.position) =
         (List.range (((colTasks store task.status).filter
             (fun t => t.id != task.id)).length + 1)).map (fun (n : Nat) => (n : Int))) ∧
    reorderRoute [⟨1, "A", "todo", 0⟩, ⟨2, "B", "todo", 1⟩, ⟨3, "C", "todo", 2⟩] 3 1
        (some ("before")) =
      ((200, [⟨3, "C", "todo", 0⟩, ⟨1, "A", "todo", 1⟩, ⟨2, "B", "todo", 2⟩]),
       [⟨1, "A", "todo", 1⟩, ⟨2, "B", "todo", 2⟩, ⟨3, "C", "todo", 0⟩]) := by
  constructor
  · intro store taskId targetTaskId pa task targetTask k ht htt hs hk
    exact reorderTaskInColumn_returned pa ht htt hs hk
  · decide

theorem C7_reorder_placement_witness :
    (reorderTaskInColumn [⟨1, "A", "todo", 0⟩, ⟨2, "B", "todo", 1⟩, ⟨3, "C", "todo", 2⟩]
        3 1 false).1.map (fun t => t.id) = [3, 1, 2] ∧
    (reorderTaskInColumn [⟨1, "A", "todo", 0⟩, ⟨2, "B", "todo", 1⟩, ⟨3, "C", "todo", 2⟩]
        3 1 false).1.map (fun t => t.position) = [0, 1, 2] := by
  have h := C7_reorder_placement.1 [⟨1, "A", "todo", 0⟩, ⟨2, "B", "todo", 1⟩,
      ⟨3, "C", "todo", 2⟩] 3 1 false ⟨3, "C", "todo", 2⟩ ⟨1, "A", "todo", 0⟩ 0
      (by decide) (by decide) rfl (by decide)
  refine ⟨?_, ?_⟩
  · rw [h.1]
    decide
  · rw [h.2]
    decide

/-- C8 counterexample: a cross-column move whose target task id 99 does not
exist answers 200 — not NotFound — and the store is changed by the call. -/
theorem C8_counterexample :
    (statusRoute [⟨1, "A", "todo", 0⟩, ⟨2, "B", "done", 0⟩] 1
        ⟨"done", some 99, none, none, none, none, none⟩).1.1 = 200 ∧
    (statusRoute [⟨1, "A", "todo", 0⟩, ⟨2, "B", "done", 0⟩] 1
        ⟨"done", some 99, none, none, none, none, none⟩).2 ≠
      [⟨1, "A", "todo", 0⟩, ⟨2, "B", "done", 0⟩] := by
  decide

/-- C8 (amended): when a cross-column move names a truthy target task id
that does not resolve, the operation does not fail: the route answers 200,
returns the task with the target status at insert position 0, and issues
store writes — afterwards the moved task's stored record carries the target
status. -/
theorem C8_missing_target_move_succeeds :
    ∀ (store : Store) (id : Nat) (body : StatusBody) (task : Task),
      wfStore store →
      getTask store id = some task →
      task.status ≠ body.status →
      truthy body.targetTaskId = true →
      getTask store (body.targetTaskId.getD 0) = none →
      (statusRoute store id body).1.1 = 200 ∧
      (statusRoute store id body).1.2 =
        some { task with status := body.status, position := 0 } ∧
      ∃ u, getTask (statusRoute store id body).2 id = some u ∧ u.status = body.status := by
  intro store id body task hwf htask hcross htr hget
  have hbne : (task.status != body.status) = true := bne_iff_ne.mpr hcross
  have hred := @updateTaskStatus_target_missing store id body.status body.targetTaskId
    (body.placeBefore.getD false) task htask htr hget
  have hroute : statusRoute store id body =
      ((200, (updateTaskStatus store id body.status none body.targetTaskId
        (body.placeBefore.getD false)).1),
       (updateTaskStatus store id body.status none body.targetTaskId
        (body.placeBefore.getD false)).2) := by
    simp only [statusRoute, htask, hbne, if_true, htr]
  rw [hroute, hred]
  refine ⟨rfl, rfl, ?_⟩
  show ∃ u, getTask (renumber (setTask store { task with status := body.status, position := 0 })
      (sortC (moveCmp id)
        (colTasks (setTask store { task with status := body.status, position := 0 })
          body.status)) 0) id = some u ∧
    u.status = body.status
  have hwf1 : wfStore (setTask store { task with status := body.status, position := 0 }) :=
    wfStore_setTask _ hwf
  have hv : ({ task with status := body.status, position := 0 } : Task) ∈
      setTask store { task with status := body.status, position := 0 } :=
    mem_setTask_self store _
  obtain ⟨u, hu, hus, _⟩ :=
    getTask_renumber_sorted_col hwf1 (moveCmp id) body.status hv rfl
  refine ⟨u, ?_, hus⟩
  rw [← congrArg (fun n => getTask (renumber (setTask store
      { task with status := body.status, position := 0 })
      (sortC (moveCmp id)
        (colTasks (setTask store { task with status := body.status, position := 0 })
          body.status)) 0) n)
    (getTask_eq_some htask).2]
  exact hu

theorem C8_missing_target_move_succeeds_witness :
    (statusRoute [⟨1, "A", "todo", 0⟩, ⟨2, "B", "done", 0⟩] 1
        ⟨"done", some 99, none, none, none, none, none⟩).1.1 = 200 ∧
    (statusRoute [⟨1, "A", "todo", 0⟩, ⟨2, "B", "done", 0⟩] 1
        ⟨"done", some 99, none, none, none, none, none⟩).1.2 =
      some ⟨1, "A", "done", 0⟩ ∧
    ∃ u, getTask (statusRoute [⟨1, "A", "todo", 0⟩, ⟨2, "B", "done", 0⟩] 1
        ⟨"done", some 99, none, none, none, none, none⟩).2 1 = some u ∧
      u.status = "done" :=
  C8_missing_target_move_succeeds [⟨1, "A", "todo", 0⟩, ⟨2, "B", "done", 0⟩] 1
    ⟨"done", some 99, none, none, none, none, none⟩ ⟨1, "A", "todo", 0⟩
    (by decide) (by decide) (by decide) (by decide) (by decide)

/-- C9: `updateTaskPosition` writes the supplied position verbatim to the
one task, returning that task, and touches no other task and performs no
renormalization of the column; consequently a reachable state — two tasks
created in "todo", then the second repositioned onto position 0 — ends with
two same-status tasks both at position 0. -/
theorem C9_position_write_verbatim :
    (∀ (store : Store) (id : Nat) (p : Int) (task : Task),
       getTask store id = some task →
       (updateTaskPosition store id p).1 = some { task with position := p } ∧
       (updateTaskPosition store id p).2 = setTask store { task with position := p } ∧
       ∀ t ∈ store, t.id ≠ id →
         getTask (updateTaskPosition store id p).2 t.id = getTask store t.id) ∧
    (getTask (updateTaskPosition (createTask (createTask [] 1 ("t1") ("todo") none).2
        2 ("t2") ("todo") none).2 2 0).2 1 = some ⟨1, "t1", "todo", 0⟩ ∧
     getTask (updateTaskPosition (createTask (createTask [] 1 ("t1") ("todo") none).2
        2 ("t2") ("todo") none).2 2 0).2 2 = some ⟨2, "t2", "todo", 0⟩) := by
  constructor
  · intro store id p task htask
    refine ⟨?_, ?_, ?_⟩
    · simp only [updateTaskPosition, htask]
    · simp only [updateTaskPosition, htask]
    · intro t htm htid
      simp only [updateTaskPosition, htask]
      refine getTask_setTask_ne store _ ?_
      show t.id ≠ ({ task with position := p } : Task).id
      rw [show ({ task with position := p } : Task).id = task.id from rfl,
        (getTask_eq_some htask).2]
      exact htid
  · decide

theorem C9_position_write_verbatim_witness :
    (updateTaskPosition [⟨1, "A", "todo", 0⟩, ⟨2, "B", "todo", 1⟩] 2 0).1 =
      some ⟨2, "B", "todo", 0⟩ :=
  (C9_position_write_verbatim.1 [⟨1, "A", "todo", 0⟩, ⟨2, "B", "todo", 1⟩] 2 0
    ⟨2, "B", "todo", 1⟩ (by decide)).1

end Kanban
